import Mathlib

/-!
Verification of the minitorch scalar autodiff core.

Numeric values are modelled as rationals: every concrete value appearing in
the specification (2.0, 3.0, 4.0, seed 1.0, derivatives) is exactly
representable, and the graph algorithms are independent of the numeric
representation.  The transcendental operations (Log, Sigmoid, Exp) are not
representable over the rationals and no claim mentions them, so the embedded
operation library covers the remaining operations of scalar_functions.py:
Add, Mul, Inv, Neg, ReLU, LT, EQ.

The Scalar class itself (file minitorch/scalar.py) is not part of the given
sources; only its callers (autodiff.py, scalar_functions.py) are.  Wherever a
definition models that missing class it is marked with a doc comment starting
with the words Modelled from the spec.
-/

/-- Operation identity for the dispatch wrapper: one tag per embedded concrete
subclass of ScalarFunction from scalar_functions.py. -/
inductive Fn where
  | add
  | mul
  | inv
  | neg
  | relu
  | lt
  | eq
deriving DecidableEq, Repr

/-- Number of positional inputs of the forward pass of each operation, i.e.
the number of local derivatives its backward pass produces. -/
def arityOf : Fn → ℕ
  | .add => 2
  | .mul => 2
  | .inv => 1
  | .neg => 1
  | .relu => 1
  | .lt => 2
  | .eq => 2

/-- The Context dataclass of autodiff.py, lines 128-145: a no_grad flag and
the tuple of values saved by the forward pass. -/
structure Context where
  no_grad : Bool
  saved_values : List ℚ
deriving DecidableEq, Repr

/-- Context.save_for_backward of autodiff.py: stores the given values unless
no_grad is set.  The Python method mutates the instance; here the updated
instance is returned. -/
def Context.save_for_backward (ctx : Context) (values : List ℚ) : Context :=
  if ctx.no_grad then ctx else { ctx with saved_values := values }

/-- Context.saved_tensors of autodiff.py: returns saved_values unchanged. -/
def Context.saved_tensors (ctx : Context) : List ℚ :=
  ctx.saved_values

mutual
/-- Modelled from the spec: the Node (Scalar) data model of spec section 3 —
a numeric value, an optional History, and a unique id.  The mutable
derivative slot of a Node is represented outside the tree as a store keyed by
unique id (see accumulate_derivative below).  Sharing of a Node by several
consumers is represented by repeating the identical subtree with the same
unique id, which is exactly how the id-keyed algorithms of autodiff.py
observe sharing. -/
inductive Scalar where
  | mk (data : ℚ) (history : HistoryOpt) (uid : ℕ)
/-- Encoding of the optional History field (Python None or a ScalarHistory);
a separate inductive rather than Option so that the four graph types form a
plain mutual inductive family. -/
inductive HistoryOpt where
  | noneH
  | someH (h : ScalarHistory)
/-- Modelled from the spec: the History record of spec section 3 — the
producing operation (None for a bare leaf), the Context of that invocation,
and the ordered parent Nodes. -/
inductive ScalarHistory where
  | mk (last_fn : Option Fn) (ctx : Context) (inputs : ScalarList)
/-- Encoding of the Python list of input Nodes; a separate inductive rather
than List so that the family is a plain mutual inductive. -/
inductive ScalarList where
  | nil
  | cons (head : Scalar) (tail : ScalarList)
end

/-- Conversion from the encoded input list to an ordinary Lean list. -/
def ScalarList.toList : ScalarList → List Scalar
  | .nil => []
  | .cons a as => a :: as.toList

/-- Whether the encoded input list is empty. -/
def ScalarList.isEmpty : ScalarList → Bool
  | .nil => true
  | .cons _ _ => false

/-- The numeric value of a Node. -/
def Scalar.data : Scalar → ℚ
  | .mk d _ _ => d

/-- The optional History of a Node. -/
def Scalar.history : Scalar → HistoryOpt
  | .mk _ h _ => h

/-- The unique id of a Node. -/
def Scalar.uid : Scalar → ℕ
  | .mk _ _ u => u

/-- Whether the history field is present (Python: history is not None). -/
def Scalar.historySome : Scalar → Bool
  | .mk _ .noneH _ => false
  | .mk _ (.someH _) _ => true

/-- The parents of a Node: history.inputs, or the empty list when there is no
history (the traversals only read parents after checking the history). -/
def Scalar.inputsL : Scalar → List Scalar
  | .mk _ .noneH _ => []
  | .mk _ (.someH (.mk _ _ ins)) _ => ins.toList

/-- Modelled from the spec: is_constant holds iff the node has no history at
all (spec section 3, Node invariants). -/
def Scalar.is_constant : Scalar → Bool
  | .mk _ .noneH _ => true
  | .mk _ (.someH _) _ => false

/-- Modelled from the spec: a Node is a leaf iff history is absent, or
history is present but its parent list is empty (spec section 3, Node
invariants). -/
def Scalar.is_leaf : Scalar → Bool
  | .mk _ .noneH _ => true
  | .mk _ (.someH (.mk _ _ ins)) _ => ins.isEmpty

/-- Result of a raw backward call: Python returns either a bare number or a
tuple of numbers (scalar_functions.py gives both shapes). -/
inductive BackResult where
  | single (x : ℚ)
  | tuple (xs : List ℚ)
deriving DecidableEq, Repr

/-- wrap_tuple of scalar_functions.py, lines 16-20: turn a possible value
into a tuple — a tuple is returned as is, anything else becomes a
1-tuple. -/
def wrap_tuple : BackResult → List ℚ
  | .single x => [x]
  | .tuple xs => xs

/-- A Python value as returned by a forward implementation, for the
isinstance float check in ScalarFunction.apply: the embedded operations all
return the float case, the other cases stand for ill-shaped results of a
contract-violating operation. -/
inductive PyVal where
  | float (x : ℚ)
  | tuple (xs : List ℚ)
  | pynone
deriving DecidableEq, Repr

/-- Whether a Python value is a float (the isinstance check of apply). -/
def PyVal.isFloat : PyVal → Bool
  | .float _ => true
  | _ => false

/-- The forward methods of scalar_functions.py, dispatched on the operation
tag.  Each case returns the possibly-updated Context (save_for_backward calls
made by the source are threaded through) together with the numeric result;
an argument list whose length does not match the arity is a Python TypeError,
modelled as none.  Division is total on the rationals, with 1/0 = 0 in the
Inv case where Python would raise ZeroDivisionError; no claim depends on that
case. -/
def scalarForward : Fn → Context → List ℚ → Option (Context × PyVal)
  | .add, ctx, [a, b] => some (ctx, .float (a + b))
  | .mul, ctx, [a, b] => some (ctx.save_for_backward [a, b], .float (a * b))
  | .inv, ctx, [a] => some (ctx.save_for_backward [a], .float (1 / a))
  | .neg, ctx, [a] => some (ctx, .float (-a))
  | .relu, ctx, [a] => some (ctx.save_for_backward [a], .float (max 0 a))
  | .lt, ctx, [a, b] => some (ctx, .float (if a < b then 1 else 0))
  | .eq, ctx, [a, b] => some (ctx, .float (if a = b then 1 else 0))
  | _, _, _ => none

/-- The backward methods of scalar_functions.py, dispatched on the operation
tag.  A tuple-unpacking of saved_values that does not match (Python raising
ValueError) is modelled as none. -/
def scalarBackward : Fn → Context → ℚ → Option BackResult
  | .add, _, d_output => some (.tuple [d_output, d_output])
  | .mul, ctx, d_output =>
    match ctx.saved_values with
    | [a, b] => some (.tuple [b * d_output, a * d_output])
    | _ => none
  | .inv, ctx, d_output =>
    match ctx.saved_values with
    | [a] => some (.tuple [-1 / (a * a) * d_output])
    | _ => none
  | .neg, _, d_output => some (.single (-d_output))
  | .relu, ctx, d_output =>
    match ctx.saved_values with
    | [a] => some (.single (if a > 0 then d_output else 0))
    | _ => none
  | .lt, _, _ => some (.tuple [0, 0])
  | .eq, _, _ => some (.tuple [0, 0])

/-- ScalarFunction cls dot underscore backward of scalar_functions.py, lines
39-41: the raw backward result passed through wrap_tuple. -/
def ScalarFunction._backward (fn : Fn) (ctx : Context) (d_out : ℚ) : Option (List ℚ) :=
  (scalarBackward fn ctx d_out).map wrap_tuple

/-- Modelled from the spec: chain_rule of the Node class (spec section 4.4) —
invoke the paired operation's backward on the History's Context and the
upstream derivative, and pair the resulting local derivatives positionally
with the parents.  A node without history or without a recorded operation has
no paired backward; backpropagate only calls chain_rule behind a history
check. -/
def Scalar.chain_rule (v : Scalar) (d_output : ℚ) : Option (List (Scalar × ℚ)) :=
  match v with
  | .mk _ .noneH _ => none
  | .mk _ (.someH (.mk last_fn ctx ins)) _ =>
    match last_fn with
    | none => none
    | some fn =>
      match ScalarFunction._backward fn ctx d_output with
      | none => none
      | some xs => some (ins.toList.zip xs)

/-- An argument to ScalarFunction.apply: already a Scalar, or a bare number
(Python ScalarLike). -/
inductive ScalarLike where
  | scalar (s : Scalar)
  | num (x : ℚ)

/-- The input-wrapping loop of ScalarFunction.apply, lines 49-57: existing
Scalars are kept and their data recorded, bare numbers are wrapped into fresh
leaf Nodes (empty History, no operation) using and incrementing the id
counter.  Returns the input Nodes, the raw values, and the new counter. -/
def wrapInputs : List ScalarLike → ℕ → ScalarList × List ℚ × ℕ
  | [], n => (.nil, [], n)
  | .scalar s :: rest, n =>
    let r := wrapInputs rest n
    (.cons s r.1, s.data :: r.2.1, r.2.2)
  | .num x :: rest, n =>
    let r := wrapInputs rest (n + 1)
    (.cons (Scalar.mk x (.someH (.mk none (Context.mk false []) .nil)) n) r.1,
      x :: r.2.1, r.2.2)

/-- The tail of ScalarFunction.apply, lines 64-68: assert that the forward
result is a float (a non-float is the assertion failure, modelled as error,
and produces no Node), then build the result Node with a fresh History over
the input Nodes, consuming one fresh id. -/
def assertAndBuild (fn : Fn) (ctx : Context) (inputs : ScalarList) (c : PyVal) (n : ℕ) :
    Except String (Scalar × ℕ) :=
  match c with
  | .float x => .ok (Scalar.mk x (.someH (.mk (some fn) ctx inputs)) n, n + 1)
  | _ => .error "Expected return type float"

/-- ScalarFunction.apply of scalar_functions.py, lines 48-68: wrap the
inputs, create a fresh Context with no_grad false, run forward on the raw
values, assert the result shape, and build the result Node.  The global id
counter is threaded explicitly. -/
def ScalarFunction.apply (fn : Fn) (vals : List ScalarLike) (n : ℕ) :
    Except String (Scalar × ℕ) :=
  let r := wrapInputs vals n
  match scalarForward fn (Context.mk false []) r.2.1 with
  | none => .error "TypeError"
  | some (ctx2, c) => assertAndBuild fn ctx2 r.1 c r.2.2

mutual
/-- The inner visit function of topological_sort, autodiff.py lines 78-90:
skip a node already visited or constant; otherwise mark it visited, visit
the parents first, then append the node.  The state is the pair of the
visited id set and the output list. -/
def visit : Scalar → List ℕ × List Scalar → List ℕ × List Scalar
  | .mk _ .noneH _, st => st
  | .mk d (.someH (.mk fn ctx ins)) u, st =>
    if u ∈ st.1 then st
    else
      let st2 := visitList ins (u :: st.1, st.2)
      (st2.1, st2.2 ++ [.mk d (.someH (.mk fn ctx ins)) u])
/-- The for-loop of visit over the parents, in positional order. -/
def visitList : ScalarList → List ℕ × List Scalar → List ℕ × List Scalar
  | .nil, st => st
  | .cons p ps, st => visitList ps (visit p st)
end

/-- topological_sort of autodiff.py, lines 64-93: run visit from the given
variable on empty state and return the accumulated list. -/
def topological_sort (v : Scalar) : List Scalar :=
  (visit v ([], [])).2

/-- Lookup in the derivatives dictionary keyed by unique id (Python dict
access derivatives bracket uid). -/
def dictGet : List (ℕ × ℚ) → ℕ → Option ℚ
  | [], _ => none
  | p :: rest, k => if p.1 = k then some p.2 else dictGet rest k

/-- The update step of backpropagate, autodiff.py lines 121-125: if the key
is absent set it to the new contribution, otherwise add the contribution to
the existing value. -/
def dictInsertAdd : List (ℕ × ℚ) → ℕ → ℚ → List (ℕ × ℚ)
  | [], k, d => [(k, d)]
  | p :: rest, k, d =>
    if p.1 = k then (p.1, p.2 + d) :: rest else p :: dictInsertAdd rest k d

/-- The keys of the derivatives dictionary. -/
def dictKeys (m : List (ℕ × ℚ)) : List ℕ :=
  m.map Prod.fst

/-- Modelled from the spec: accumulate_derivative of the Node class (spec
section 4.4) — add the contribution into the node's stored derivative slot,
treating an unset slot as zero.  The derivative slots of all Nodes are
modelled as one store from unique id to optional value. -/
def accumulate_derivative (store : ℕ → Option ℚ) (u : ℕ) (x : ℚ) : ℕ → Option ℚ :=
  fun u' => if u' = u then some (x + (store u).getD 0) else store u'

/-- Why a backpropagate run stopped early: a failing dictionary lookup
(Python KeyError) or an exception inside a backward call. -/
inductive BPError where
  | keyError
  | backwardError
deriving DecidableEq, Repr

/-- Final state of a backpropagate run: the store of leaf derivative slots,
the derivatives dictionary, and the error that stopped the loop, if any. -/
structure BPResult where
  store : ℕ → Option ℚ
  derivatives : List (ℕ × ℚ)
  error : Option BPError

/-- The main loop of backpropagate, autodiff.py lines 111-125: for each
variable of the reversed order, look its derivative up (a missing key is the
KeyError outcome), accumulate into the derivative slot if the variable is a
leaf, otherwise chain-rule the derivative to the parents, inserting or adding
each contribution. -/
def backpropLoop : List Scalar → List (ℕ × ℚ) → (ℕ → Option ℚ) → BPResult
  | [], derivatives, store => ⟨store, derivatives, none⟩
  | var :: rest, derivatives, store =>
    match dictGet derivatives var.uid with
    | none => ⟨store, derivatives, some .keyError⟩
    | some d =>
      if var.is_leaf then
        backpropLoop rest derivatives (accumulate_derivative store var.uid d)
      else if var.historySome then
        match var.chain_rule d with
        | none => ⟨store, derivatives, some .backwardError⟩
        | some pairs =>
          backpropLoop rest
            (pairs.foldl (fun m pq => dictInsertAdd m pq.1.uid pq.2) derivatives) store
      else
        backpropLoop rest derivatives store

/-- backpropagate of autodiff.py, lines 96-125: compute the topological
order, seed the derivatives dictionary with the root's id, and run the loop
over the reversed order.  The initial derivative store (the derivative slots
of all Nodes before the call) is passed explicitly. -/
def backpropagate (v : Scalar) (deriv : ℚ) (store : ℕ → Option ℚ) : BPResult :=
  backpropLoop (topological_sort v).reverse [(v.uid, deriv)] store

/-- central_difference of autodiff.py, lines 10-36: perturb the chosen
positional argument by plus and minus epsilon and form the central difference
quotient. -/
def central_difference (f : List ℚ → ℚ) (vals : List ℚ) (arg : ℕ) (epsilon : ℚ) : ℚ :=
  let vals_plus := vals.set arg (vals.getD arg 0 + epsilon)
  let vals_minus := vals.set arg (vals.getD arg 0 - epsilon)
  (f vals_plus - f vals_minus) / (2 * epsilon)

mutual
/-- All nodes reachable from a node through history.inputs, the node itself
included, listed with repetition. -/
def Scalar.allNodes : Scalar → List Scalar
  | .mk d h u => .mk d h u :: allNodesH h
/-- Reachable nodes through an optional history. -/
def allNodesH : HistoryOpt → List Scalar
  | .noneH => []
  | .someH (.mk _ _ ins) => allNodesL ins
/-- Reachable nodes from each element of an input list. -/
def allNodesL : ScalarList → List Scalar
  | .nil => []
  | .cons a as => a.allNodes ++ allNodesL as
end

/-- Ids strictly increase from parents to children everywhere in the graph:
the embedding of the guarantee that Python assigns unique ids from a global
monotone counter and a History can only reference Nodes created strictly
earlier (spec sections 3 and 4.4). -/
def uidsIncrease (root : Scalar) : Prop :=
  ∀ w ∈ root.allNodes, ∀ p ∈ w.inputsL, p.uid < w.uid

/-- Nodes of the graph agreeing on the id agree on being a leaf and on being
constant: a consequence of Python's process-wide unique ids (two occurrences
of one id are two references to one object). -/
def sameUidSameKind (root : Scalar) : Prop :=
  ∀ a ∈ root.allNodes, ∀ b ∈ root.allNodes,
    a.uid = b.uid → a.is_leaf = b.is_leaf ∧ a.is_constant = b.is_constant

/-- A node's recorded operation, if any, has at least as many local
derivatives as the node has parents: true of every graph built by
ScalarFunction.apply, where inputs has exactly the operation's arity. -/
def Scalar.arityMatches (v : Scalar) : Bool :=
  match v with
  | .mk _ .noneH _ => true
  | .mk _ (.someH (.mk none _ _)) _ => true
  | .mk _ (.someH (.mk (some fn) _ ins)) _ => ins.toList.length ≤ arityOf fn

/-- Every node of the graph satisfies arityMatches. -/
def aritiesOK (root : Scalar) : Prop :=
  ∀ w ∈ root.allNodes, w.arityMatches = true

/-- A list of nodes is in dependency order relative to already-seen ids:
every non-constant parent of each element is among the seen ids or among the
ids of the elements before it. -/
def topoOK (seen : List ℕ) : List Scalar → Prop
  | [] => True
  | w :: rest =>
    (∀ p ∈ w.inputsL, p.is_constant = true ∨ p.uid ∈ seen) ∧ topoOK (w.uid :: seen) rest

/-- Every element of a list is either one of the designated top nodes or an
input of a strictly later element of the list. -/
def eachConsumed (tops : List Scalar) : List Scalar → Prop
  | [] => True
  | w :: rest =>
    (w ∈ tops ∨ ∃ y ∈ rest, w ∈ y.inputsL) ∧ eachConsumed tops rest

instance (root : Scalar) : Decidable (uidsIncrease root) := by
  unfold uidsIncrease; infer_instance

instance (root : Scalar) : Decidable (sameUidSameKind root) := by
  unfold sameUidSameKind; infer_instance

instance (root : Scalar) : Decidable (aritiesOK root) := by
  unfold aritiesOK; infer_instance

/-- The History of a bare leaf: present but empty, exactly what wrapInputs
attaches to an implicitly wrapped constant. -/
def emptyHist : HistoryOpt := .someH (.mk none (Context.mk false []) .nil)

/-- The all-unset derivative store: no Node has a derivative before the first
backpropagation call. -/
def emptyStore : ℕ → Option ℚ := fun _ => none

/-- Example leaf with value 2 and id 1, the shared x of the fan-out
scenario. -/
def exX : Scalar := .mk 2 emptyHist 1

/-- Example node y = x + x with the same leaf used for both positional
inputs, as built by ScalarFunction.apply for Add on x and x with the counter
at 2. -/
def exY : Scalar :=
  .mk 4 (.someH (.mk (some .add) (Context.mk false []) (.cons exX (.cons exX .nil)))) 2

/-- Wrapped constant 2.0 of the concrete scenario, id 1. -/
def exTwo : Scalar := .mk 2 emptyHist 1

/-- Wrapped constant 3.0 of the concrete scenario, id 2. -/
def exThree : Scalar := .mk 3 emptyHist 2

/-- The node Add.apply(2.0, 3.0) of the concrete scenario: value 5, id 3. -/
def exAdd : Scalar :=
  .mk 5 (.someH (.mk (some .add) (Context.mk false []) (.cons exTwo (.cons exThree .nil)))) 3

/-- Wrapped constant 4.0 of the concrete scenario, id 4. -/
def exFour : Scalar := .mk 4 emptyHist 4

/-- The node Mul.apply(Add.apply(2.0, 3.0), 4.0) of the concrete scenario:
value 20, id 5, Context carrying the values 5 and 4 saved by Mul.forward. -/
def exMul : Scalar :=
  .mk 20 (.someH (.mk (some .mul) (Context.mk false [5, 4]) (.cons exAdd (.cons exFour .nil)))) 5

mutual
/-- Structural size of a node, for strong induction over graphs. -/
def Scalar.nsize : Scalar → ℕ
  | .mk _ h _ => nsizeH h + 1
/-- Structural size of an optional history. -/
def nsizeH : HistoryOpt → ℕ
  | .noneH => 0
  | .someH (.mk _ _ ins) => nsizeL ins + 1
/-- Structural size of an input list. -/
def nsizeL : ScalarList → ℕ
  | .nil => 0
  | .cons a as => a.nsize + nsizeL as + 1
end

/-- The visit loop over an ordinary list of nodes, the foldl view of
visitList used by the proofs. -/
def visitF (ps : List Scalar) (st : List ℕ × List Scalar) : List ℕ × List Scalar :=
  ps.foldl (fun s p => visit p s) st

/-- Reachable nodes from each element of an ordinary list of nodes. -/
def allNodesList : List Scalar → List Scalar
  | [] => []
  | p :: ps => p.allNodes ++ allNodesList ps

/-- Postcondition of one visit call: how the visited set and the output list
grow, which nodes are appended, and in which arrangement. -/
structure VisitOut (v : Scalar) (st : List ℕ × List Scalar) (L : List Scalar) : Prop where
  grow : (visit v st).2 = st.2 ++ L
  mem_vis : ∀ u, u ∈ (visit v st).1 ↔ u ∈ st.1 ∨ u ∈ L.map Scalar.uid
  nodup : (L.map Scalar.uid).Nodup
  fresh : ∀ u ∈ L.map Scalar.uid, u ∉ st.1
  nodes : ∀ w ∈ L, w.is_constant = false ∧ w ∈ v.allNodes
  marked : v.is_constant = false → v.uid ∈ (visit v st).1
  root_last : v.is_constant = false → v.uid ∉ st.1 → ∃ L0, L = L0 ++ [v]
  skipped : v.is_constant = true ∨ v.uid ∈ st.1 → L = []
  consumed : eachConsumed [v] L

/-- Postcondition of the visit loop over a list of nodes. -/
structure FoldOut (ps : List Scalar) (st : List ℕ × List Scalar) (L : List Scalar) : Prop where
  grow : (visitF ps st).2 = st.2 ++ L
  mem_vis : ∀ u, u ∈ (visitF ps st).1 ↔ u ∈ st.1 ∨ u ∈ L.map Scalar.uid
  nodup : (L.map Scalar.uid).Nodup
  fresh : ∀ u ∈ L.map Scalar.uid, u ∉ st.1
  nodes : ∀ w ∈ L, w.is_constant = false ∧ w ∈ allNodesList ps
  marked : ∀ p ∈ ps, p.is_constant = false → p.uid ∈ (visitF ps st).1
  consumed : eachConsumed ps L

@[simp]
theorem Scalar.uid_mk (d : ℚ) (h : HistoryOpt) (u : ℕ) : (Scalar.mk d h u).uid = u := rfl

@[simp]
theorem Scalar.data_mk (d : ℚ) (h : HistoryOpt) (u : ℕ) : (Scalar.mk d h u).data = d := rfl

@[simp]
theorem ScalarList.toList_nil : ScalarList.nil.toList = [] := rfl

@[simp]
theorem ScalarList.toList_cons (a : Scalar) (as : ScalarList) :
    (ScalarList.cons a as).toList = a :: as.toList := rfl

@[simp]
theorem Scalar.inputsL_noneH (d : ℚ) (u : ℕ) : (Scalar.mk d .noneH u).inputsL = [] := rfl

@[simp]
theorem Scalar.inputsL_someH (d : ℚ) (fn : Option Fn) (ctx : Context) (ins : ScalarList)
    (u : ℕ) : (Scalar.mk d (.someH (.mk fn ctx ins)) u).inputsL = ins.toList := rfl

@[simp]
theorem Scalar.is_constant_noneH (d : ℚ) (u : ℕ) :
    (Scalar.mk d .noneH u).is_constant = true := rfl

@[simp]
theorem Scalar.is_constant_someH (d : ℚ) (h : ScalarHistory) (u : ℕ) :
    (Scalar.mk d (.someH h) u).is_constant = false := rfl

@[simp]
theorem Scalar.is_leaf_noneH (d : ℚ) (u : ℕ) : (Scalar.mk d .noneH u).is_leaf = true := rfl

@[simp]
theorem Scalar.is_leaf_someH (d : ℚ) (fn : Option Fn) (ctx : Context) (ins : ScalarList)
    (u : ℕ) : (Scalar.mk d (.someH (.mk fn ctx ins)) u).is_leaf = ins.isEmpty := rfl

theorem allNodesL_eq_allNodesList (l : ScalarList) : allNodesL l = allNodesList l.toList := by
  induction l using ScalarList.toList.induct with
  | case1 => simp [allNodesL, allNodesList]
  | case2 a as ih => simp [allNodesL, allNodesList, ih]

theorem Scalar.allNodes_decomp (v : Scalar) :
    v.allNodes = v :: allNodesList v.inputsL := by
  cases v with
  | mk d h u =>
    cases h with
    | noneH => simp [Scalar.allNodes, allNodesH, allNodesList]
    | someH hh =>
      cases hh with
      | mk fn ctx ins => simp [Scalar.allNodes, allNodesH, allNodesL_eq_allNodesList]

theorem mem_allNodesList {w : Scalar} {ps : List Scalar} :
    w ∈ allNodesList ps ↔ ∃ p ∈ ps, w ∈ p.allNodes := by
  induction ps with
  | nil => simp [allNodesList]
  | cons p rest ih => simp [allNodesList, ih]

theorem Scalar.self_mem_allNodes (v : Scalar) : v ∈ v.allNodes := by
  rw [Scalar.allNodes_decomp]; exact List.mem_cons_self v _

theorem Scalar.inputsL_mem_allNodes {v p : Scalar} (hp : p ∈ v.inputsL) :
    p ∈ v.allNodes := by
  rw [Scalar.allNodes_decomp]
  exact List.mem_cons_of_mem _ (mem_allNodesList.2 ⟨p, hp, p.self_mem_allNodes⟩)

theorem Scalar.allNodes_trans {v p w : Scalar} (hp : p ∈ v.inputsL) (hw : w ∈ p.allNodes) :
    w ∈ v.allNodes := by
  rw [Scalar.allNodes_decomp]
  exact List.mem_cons_of_mem _ (mem_allNodesList.2 ⟨p, hp, hw⟩)

theorem nsize_le_nsizeL {p : Scalar} {l : ScalarList} (hp : p ∈ l.toList) :
    p.nsize ≤ nsizeL l := by
  induction l using ScalarList.toList.induct with
  | case1 => simp at hp
  | case2 a as ih =>
    rcases List.mem_cons.1 (by simpa using hp) with h | h
    · subst h; simp [nsizeL]; omega
    · have := ih h; simp [nsizeL]; omega

theorem nsize_lt_of_mem_inputsL {v p : Scalar} (hp : p ∈ v.inputsL) :
    p.nsize < v.nsize := by
  cases v with
  | mk d h u =>
    cases h with
    | noneH => simp at hp
    | someH hh =>
      cases hh with
      | mk fn ctx ins =>
        have := nsize_le_nsizeL (by simpa using hp)
        simp [Scalar.nsize, nsizeH]
        omega

theorem scalar_strong_ind (P : Scalar → Prop)
    (h : ∀ v : Scalar, (∀ p ∈ v.inputsL, P p) → P v) : ∀ v, P v := by
  have key : ∀ n v, Scalar.nsize v ≤ n → P v := by
    intro n
    induction n with
    | zero =>
      intro v hv
      apply h
      intro p hp
      exact absurd hv (by have := nsize_lt_of_mem_inputsL hp; omega)
    | succ n ih =>
      intro v hv
      apply h
      intro p hp
      exact ih p (by have := nsize_lt_of_mem_inputsL hp; omega)
  intro v
  exact key v.nsize v le_rfl

theorem visit_noneH (d : ℚ) (u : ℕ) (st : List ℕ × List Scalar) :
    visit (.mk d .noneH u) st = st := rfl

theorem visit_someH (d : ℚ) (fn : Option Fn) (ctx : Context) (ins : ScalarList) (u : ℕ)
    (st : List ℕ × List Scalar) :
    visit (.mk d (.someH (.mk fn ctx ins)) u) st =
      if u ∈ st.1 then st
      else ((visitList ins (u :: st.1, st.2)).1,
        (visitList ins (u :: st.1, st.2)).2 ++ [.mk d (.someH (.mk fn ctx ins)) u]) := rfl

@[simp]
theorem visitF_nil (st : List ℕ × List Scalar) : visitF [] st = st := rfl

@[simp]
theorem visitF_cons (p : Scalar) (ps : List Scalar) (st : List ℕ × List Scalar) :
    visitF (p :: ps) st = visitF ps (visit p st) := rfl

theorem visitList_eq_visitF (l : ScalarList) (st : List ℕ × List Scalar) :
    visitList l st = visitF l.toList st := by
  induction l using ScalarList.toList.induct generalizing st with
  | case1 => rfl
  | case2 a as ih => simp [visitList, ih]

theorem topoOK_mono {s s' : List ℕ} (hss : ∀ u ∈ s, u ∈ s') :
    ∀ {l : List Scalar}, topoOK s l → topoOK s' l := by
  intro l
  induction l generalizing s s' with
  | nil => intro _; trivial
  | cons w rest ih =>
    intro hl
    refine ⟨fun p hp => ?_, ih ?_ hl.2⟩
    · rcases hl.1 p hp with h | h
      · exact Or.inl h
      · exact Or.inr (hss _ h)
    · intro x hx
      rcases List.mem_cons.1 hx with h | h
      · exact h ▸ List.mem_cons_self _ _
      · exact List.mem_cons_of_mem _ (hss _ h)

theorem topoOK_glue {s t : List ℕ} {A B : List Scalar} (hA : topoOK s A) (hB : topoOK t B)
    (ht : ∀ u ∈ t, u ∈ s ∨ u ∈ A.map Scalar.uid) : topoOK s (A ++ B) := by
  induction A generalizing s with
  | nil =>
    simp only [List.nil_append]
    refine topoOK_mono ?_ hB
    intro u hu
    rcases ht u hu with h | h
    · exact h
    · simp at h
  | cons a A ih =>
    refine ⟨hA.1, ih hA.2 ?_⟩
    intro u hu
    rcases ht u hu with h | h
    · exact Or.inl (List.mem_cons_of_mem _ h)
    · rw [List.map_cons] at h
      rcases List.mem_cons.1 h with h2 | h2
      · exact Or.inl (h2 ▸ List.mem_cons_self _ _)
      · exact Or.inr h2

theorem eachConsumed_mono {t t' : List Scalar} (htt : ∀ w ∈ t, w ∈ t') :
    ∀ {l : List Scalar}, eachConsumed t l → eachConsumed t' l := by
  intro l
  induction l with
  | nil => intro _; trivial
  | cons w rest ih =>
    intro hl
    refine ⟨?_, ih hl.2⟩
    rcases hl.1 with h | h
    · exact Or.inl (htt _ h)
    · exact Or.inr h

theorem eachConsumed_append {t : List Scalar} {A B : List Scalar}
    (hA : eachConsumed t A) (hB : eachConsumed t B) : eachConsumed t (A ++ B) := by
  induction A with
  | nil => simpa using hB
  | cons a A ih =>
    refine ⟨?_, ih hA.2⟩
    rcases hA.1 with h | ⟨y, hy, hw⟩
    · exact Or.inl h
    · exact Or.inr ⟨y, List.mem_append_left _ hy, hw⟩

theorem eachConsumed_glue {t1 t2 : List Scalar} {A B : List Scalar}
    (hA : eachConsumed t1 A) (ht : ∀ w ∈ t1, ∃ y ∈ B, w ∈ y.inputsL)
    (hB : eachConsumed t2 B) : eachConsumed t2 (A ++ B) := by
  induction A with
  | nil => simpa using hB
  | cons a A ih =>
    refine ⟨?_, ih hA.2⟩
    rcases hA.1 with h | ⟨y, hy, hw⟩
    · obtain ⟨y, hy, hw⟩ := ht a h
      exact Or.inr ⟨y, List.mem_append_right _ hy, hw⟩
    · exact Or.inr ⟨y, List.mem_append_left _ hy, hw⟩

theorem eachConsumed_split {tops l : List Scalar} (h : eachConsumed tops l) :
    ∀ A (w : Scalar) B, l = A ++ w :: B → w ∈ tops ∨ ∃ y ∈ B, w ∈ y.inputsL := by
  induction l with
  | nil =>
    intro A w B hl
    exact absurd hl (by simp)
  | cons x rest ih =>
    intro A w B hl
    cases A with
    | nil =>
      simp only [List.nil_append, List.cons.injEq] at hl
      obtain ⟨hx, hrest⟩ := hl
      subst hx; subst hrest
      exact h.1
    | cons a A =>
      simp only [List.cons_append, List.cons.injEq] at hl
      obtain ⟨hx, hrest⟩ := hl
      exact ih h.2 A w B hrest

theorem visitF_out (ps : List Scalar) (hps : ∀ p ∈ ps, ∀ st, ∃ L, VisitOut p st L) :
    ∀ st, ∃ L, FoldOut ps st L := by
  induction ps with
  | nil =>
    intro st
    refine ⟨[], ?_⟩
    exact {
      grow := by simp
      mem_vis := by simp
      nodup := by simp
      fresh := by simp
      nodes := by simp
      marked := by simp
      consumed := trivial }
  | cons p ps ih =>
    intro st
    obtain ⟨Lp, hp⟩ := hps p (List.mem_cons_self _ _) st
    obtain ⟨Lps, hq⟩ := ih (fun q hq => hps q (List.mem_cons_of_mem _ hq)) (visit p st)
    refine ⟨Lp ++ Lps, ?_⟩
    have hsub1 : ∀ u ∈ st.1, u ∈ (visit p st).1 := fun u hu => (hp.mem_vis u).2 (Or.inl hu)
    have hLp1 : ∀ u ∈ Lp.map Scalar.uid, u ∈ (visit p st).1 :=
      fun u hu => (hp.mem_vis u).2 (Or.inr hu)
    exact {
      grow := by
        show (visitF ps (visit p st)).2 = _
        rw [hq.grow, hp.grow, List.append_assoc]
      mem_vis := by
        intro u
        show u ∈ (visitF ps (visit p st)).1 ↔ _
        rw [hq.mem_vis u, hp.mem_vis u]
        simp only [List.map_append, List.mem_append]
        tauto
      nodup := by
        simp only [List.map_append]
        rw [List.nodup_append]
        exact ⟨hp.nodup, hq.nodup, fun u hu hmem => hq.fresh u hmem (hLp1 u hu)⟩
      fresh := by
        intro u hu
        simp only [List.map_append, List.mem_append] at hu
        rcases hu with h | h
        · exact hp.fresh u h
        · exact fun hst => hq.fresh u h (hsub1 u hst)
      nodes := by
        intro w hw
        rcases List.mem_append.1 hw with h | h
        · exact ⟨(hp.nodes w h).1, by
            simp only [allNodesList, List.mem_append]
            exact Or.inl (hp.nodes w h).2⟩
        · exact ⟨(hq.nodes w h).1, by
            simp only [allNodesList, List.mem_append]
            exact Or.inr (hq.nodes w h).2⟩
      marked := by
        intro q hq2 hc
        rcases List.mem_cons.1 hq2 with h | h
        · subst h
          exact (hq.mem_vis _).2 (Or.inl (hp.marked hc))
        · exact hq.marked q h hc
      consumed := by
        refine eachConsumed_append ?_ ?_
        · exact eachConsumed_mono (fun w hw => by
            rcases List.mem_singleton.1 hw with h
            exact h ▸ List.mem_cons_self _ _) hp.consumed
        · exact eachConsumed_mono (fun w hw => List.mem_cons_of_mem _ hw) hq.consumed }

theorem visit_out : ∀ v : Scalar, ∀ st, ∃ L, VisitOut v st L := by
  apply scalar_strong_ind (fun v => ∀ st, ∃ L, VisitOut v st L)
  intro v IH st
  cases v with
  | mk d h u =>
    cases h with
    | noneH =>
      refine ⟨[], ?_⟩
      exact {
        grow := by simp [visit_noneH]
        mem_vis := by simp [visit_noneH]
        nodup := by simp
        fresh := by simp
        nodes := by simp
        marked := by intro hc; simp at hc
        root_last := by intro hc; simp at hc
        skipped := fun _ => rfl
        consumed := trivial }
    | someH hh =>
      cases hh with
      | mk fn ctx ins =>
        by_cases hu : u ∈ st.1
        · refine ⟨[], ?_⟩
          have hv : visit (.mk d (.someH (.mk fn ctx ins)) u) st = st := by
            rw [visit_someH, if_pos hu]
          exact {
            grow := by simp [hv]
            mem_vis := by simp [hv]
            nodup := by simp
            fresh := by simp
            nodes := by simp
            marked := fun _ => by simpa [hv] using hu
            root_last := fun _ hnot => absurd hu (by simpa using hnot)
            skipped := fun _ => rfl
            consumed := trivial }
        · have hIH : ∀ p ∈ ins.toList, ∀ st2, ∃ L, VisitOut p st2 L := by
            intro p hp
            exact IH p (by simpa using hp)
          obtain ⟨Lin, hin⟩ := visitF_out ins.toList hIH (u :: st.1, st.2)
          have hv : visit (.mk d (.someH (.mk fn ctx ins)) u) st =
              ((visitF ins.toList (u :: st.1, st.2)).1,
                (visitF ins.toList (u :: st.1, st.2)).2 ++
                  [.mk d (.someH (.mk fn ctx ins)) u]) := by
            rw [visit_someH, if_neg hu, visitList_eq_visitF]
          refine ⟨Lin ++ [.mk d (.someH (.mk fn ctx ins)) u], ?_⟩
          have hgrow2 := hin.grow
          have hmem2 := hin.mem_vis
          exact {
            grow := by
              rw [hv]
              show (visitF ins.toList (u :: st.1, st.2)).2 ++ _ = _
              rw [hgrow2]
              simp
            mem_vis := by
              intro x
              rw [hv]
              show x ∈ (visitF ins.toList (u :: st.1, st.2)).1 ↔ _
              rw [hmem2 x]
              simp only [List.map_append, List.mem_append, List.map_cons, List.map_nil,
                List.mem_cons, List.mem_singleton, Scalar.uid_mk, List.not_mem_nil]
              tauto
            nodup := by
              simp only [List.map_append, List.map_cons, List.map_nil, Scalar.uid_mk]
              rw [List.nodup_append]
              refine ⟨hin.nodup, List.nodup_singleton _, ?_⟩
              intro x hx
              have := hin.fresh x hx
              simp only [List.mem_singleton]
              intro hxu
              exact this (by simp [hxu])
            fresh := by
              intro x hx
              simp only [List.map_append, List.mem_append, List.map_cons, List.map_nil,
                List.mem_singleton, Scalar.uid_mk, List.not_mem_nil, List.mem_cons] at hx
              rcases hx with hx | hx
              · intro hst
                exact hin.fresh x hx (by simp [hst])
              · rcases hx with hx | hx
                · exact hx ▸ hu
                · exact absurd hx (by simp)
            nodes := by
              intro w hw
              rcases List.mem_append.1 hw with hw | hw
              · obtain ⟨hc, hmem⟩ := hin.nodes w hw
                refine ⟨hc, ?_⟩
                rw [Scalar.allNodes_decomp]
                exact List.mem_cons_of_mem _ (by simpa using hmem)
              · rcases List.mem_singleton.1 hw with rfl
                exact ⟨by simp, Scalar.self_mem_allNodes _⟩
            marked := by
              intro _
              rw [hv]
              show Scalar.uid _ ∈ (visitF ins.toList (u :: st.1, st.2)).1
              exact (hmem2 _).2 (Or.inl (by simp))
            root_last := fun _ _ => ⟨Lin, rfl⟩
            skipped := by
              intro hcase
              rcases hcase with hc | hc
              · simp at hc
              · exact absurd hc hu
            consumed := by
              refine eachConsumed_glue hin.consumed ?_ ?_
              · intro w hw
                exact ⟨_, List.mem_singleton_self _, by simpa using hw⟩
              · exact ⟨Or.inl (List.mem_singleton_self _), trivial⟩ }

theorem uid_le_of_mem_allNodes :
    ∀ x : Scalar, (∀ w ∈ x.allNodes, ∀ p ∈ w.inputsL, p.uid < w.uid) →
      ∀ w ∈ x.allNodes, w.uid ≤ x.uid := by
  apply scalar_strong_ind
    (fun x => (∀ w ∈ x.allNodes, ∀ p ∈ w.inputsL, p.uid < w.uid) →
      ∀ w ∈ x.allNodes, w.uid ≤ x.uid)
  intro x IH h3 w hw
  rw [Scalar.allNodes_decomp] at hw
  rcases List.mem_cons.1 hw with h | h
  · exact h ▸ le_rfl
  · obtain ⟨p, hp, hwp⟩ := mem_allNodesList.1 h
    have hsub : ∀ w2 ∈ p.allNodes, ∀ q ∈ w2.inputsL, q.uid < w2.uid :=
      fun w2 hw2 => h3 w2 (Scalar.allNodes_trans hp hw2)
    have h1 : w.uid ≤ p.uid := IH p hp hsub w hwp
    have h2 : p.uid < x.uid := h3 x x.self_mem_allNodes p hp
    omega

theorem visitF_topo (ps : List Scalar)
    (hps : ∀ p ∈ ps, ∀ (st : List ℕ × List Scalar) (grey : List ℕ) (L : List Scalar),
      (visit p st).2 = st.2 ++ L →
      (∀ u, u ∈ st.1 ↔ u ∈ grey ∨ u ∈ st.2.map Scalar.uid) →
      (∀ u ∈ grey, ∀ w ∈ p.allNodes, ∀ q ∈ w.inputsL, q.uid ≠ u) →
      (∀ w ∈ p.allNodes, ∀ q ∈ w.inputsL, q.uid < w.uid) →
      topoOK (st.2.map Scalar.uid) L) :
    ∀ (st : List ℕ × List Scalar) (grey : List ℕ) (L : List Scalar),
      (visitF ps st).2 = st.2 ++ L →
      (∀ u, u ∈ st.1 ↔ u ∈ grey ∨ u ∈ st.2.map Scalar.uid) →
      (∀ u ∈ grey, ∀ w ∈ allNodesList ps, ∀ q ∈ w.inputsL, q.uid ≠ u) →
      (∀ w ∈ allNodesList ps, ∀ q ∈ w.inputsL, q.uid < w.uid) →
      topoOK (st.2.map Scalar.uid) L := by
  induction ps with
  | nil =>
    intro st grey L hgrow h1 h2 h3
    have hlen := congrArg List.length hgrow
    simp at hlen
    subst hlen
    trivial
  | cons p ps ih =>
    intro st grey L hgrow h1 h2 h3
    obtain ⟨Lp, hp⟩ := visit_out p st
    obtain ⟨Lq, hq⟩ := visitF_out ps (fun q _ => visit_out q) (visit p st)
    have hmemp : ∀ w ∈ p.allNodes, w ∈ allNodesList (p :: ps) := by
      intro w hw
      simp only [allNodesList, List.mem_append]
      exact Or.inl hw
    have hmemq : ∀ w ∈ allNodesList ps, w ∈ allNodesList (p :: ps) := by
      intro w hw
      simp only [allNodesList, List.mem_append]
      exact Or.inr hw
    have hL : L = Lp ++ Lq := by
      have e1 : (visitF (p :: ps) st).2 = st.2 ++ (Lp ++ Lq) := by
        rw [visitF_cons, hq.grow, hp.grow, List.append_assoc]
      rw [e1] at hgrow
      exact (List.append_cancel_left hgrow.symm)
    subst hL
    have htp : topoOK (st.2.map Scalar.uid) Lp :=
      hps p (List.mem_cons_self _ _) st grey Lp hp.grow h1
        (fun u hu w hw => h2 u hu w (hmemp w hw))
        (fun w hw => h3 w (hmemp w hw))
    have h1' : ∀ u, u ∈ (visit p st).1 ↔ u ∈ grey ∨ u ∈ (visit p st).2.map Scalar.uid := by
      intro u
      rw [hp.mem_vis u, h1 u, hp.grow]
      simp only [List.map_append, List.mem_append]
      tauto
    have htq : topoOK ((visit p st).2.map Scalar.uid) Lq :=
      ih (fun q hq2 => hps q (List.mem_cons_of_mem _ hq2)) (visit p st) grey Lq hq.grow h1'
        (fun u hu w hw => h2 u hu w (hmemq w hw))
        (fun w hw => h3 w (hmemq w hw))
    refine topoOK_glue htp htq ?_
    intro u hu
    rw [hp.grow] at hu
    simpa using hu

theorem visit_topo :
    ∀ v : Scalar, ∀ (st : List ℕ × List Scalar) (grey : List ℕ) (L : List Scalar),
      (visit v st).2 = st.2 ++ L →
      (∀ u, u ∈ st.1 ↔ u ∈ grey ∨ u ∈ st.2.map Scalar.uid) →
      (∀ u ∈ grey, ∀ w ∈ v.allNodes, ∀ q ∈ w.inputsL, q.uid ≠ u) →
      (∀ w ∈ v.allNodes, ∀ q ∈ w.inputsL, q.uid < w.uid) →
      topoOK (st.2.map Scalar.uid) L := by
  apply scalar_strong_ind
    (fun v => ∀ (st : List ℕ × List Scalar) (grey : List ℕ) (L : List Scalar),
      (visit v st).2 = st.2 ++ L →
      (∀ u, u ∈ st.1 ↔ u ∈ grey ∨ u ∈ st.2.map Scalar.uid) →
      (∀ u ∈ grey, ∀ w ∈ v.allNodes, ∀ q ∈ w.inputsL, q.uid ≠ u) →
      (∀ w ∈ v.allNodes, ∀ q ∈ w.inputsL, q.uid < w.uid) →
      topoOK (st.2.map Scalar.uid) L)
  intro v IH st grey L hgrow h1 h2 h3
  cases v with
  | mk d h u =>
    cases h with
    | noneH =>
      rw [visit_noneH] at hgrow
      have hlen := congrArg List.length hgrow
      simp at hlen
      subst hlen
      trivial
    | someH hh =>
      cases hh with
      | mk fn ctx ins =>
        by_cases hu : u ∈ st.1
        · rw [visit_someH, if_pos hu] at hgrow
          have hlen := congrArg List.length hgrow
          simp at hlen
          subst hlen
          trivial
        · obtain ⟨Lin, hin⟩ := visitF_out ins.toList (fun q _ => visit_out q) (u :: st.1, st.2)
          have hveq : visit (.mk d (.someH (.mk fn ctx ins)) u) st =
              ((visitF ins.toList (u :: st.1, st.2)).1,
                (visitF ins.toList (u :: st.1, st.2)).2 ++
                  [.mk d (.someH (.mk fn ctx ins)) u]) := by
            rw [visit_someH, if_neg hu, visitList_eq_visitF]
          have hL : L = Lin ++ [Scalar.mk d (.someH (.mk fn ctx ins)) u] := by
            have e1 : (visit (.mk d (.someH (.mk fn ctx ins)) u) st).2 =
                st.2 ++ (Lin ++ [Scalar.mk d (.someH (.mk fn ctx ins)) u]) := by
              rw [hveq]
              show (visitF ins.toList (u :: st.1, st.2)).2 ++ _ = _
              rw [hin.grow, List.append_assoc]
            rw [e1] at hgrow
            exact (List.append_cancel_left hgrow.symm)
          subst hL
          have hsubnodes : ∀ w ∈ allNodesList ins.toList,
              w ∈ (Scalar.mk d (.someH (.mk fn ctx ins)) u).allNodes := by
            intro w hw
            rw [Scalar.allNodes_decomp]
            exact List.mem_cons_of_mem _ (by simpa using hw)
          have h3v : ∀ q ∈ ins.toList, q.uid < u := by
            intro q hq
            have := h3 (Scalar.mk d (.someH (.mk fn ctx ins)) u)
              (Scalar.self_mem_allNodes _) q (by simpa using hq)
            simpa using this
          have h1' : ∀ x, x ∈ (u :: st.1, st.2).1 ↔
              x ∈ u :: grey ∨ x ∈ (u :: st.1, st.2).2.map Scalar.uid := by
            intro x
            simp only [List.mem_cons]
            rw [h1 x]
            tauto
          have h2' : ∀ x ∈ u :: grey, ∀ w ∈ allNodesList ins.toList,
              ∀ q ∈ w.inputsL, q.uid ≠ x := by
            intro x hx w hw q hq
            obtain ⟨r, hr, hwr⟩ := mem_allNodesList.1 hw
            rcases List.mem_cons.1 hx with hxu | hxg
            · have hq1 : q.uid < w.uid := h3 w (hsubnodes w hw) q hq
              have hw1 : w.uid ≤ r.uid := by
                refine uid_le_of_mem_allNodes r ?_ w hwr
                intro w2 hw2 q2 hq2
                refine h3 w2 ?_ q2 hq2
                exact hsubnodes w2 (mem_allNodesList.2 ⟨r, hr, hw2⟩)
              have hr1 : r.uid < u := h3v r (by simpa using hr)
              omega
            · exact h2 x hxg w (hsubnodes w hw) q hq
          have htin : topoOK (st.2.map Scalar.uid) Lin := by
            have := visitF_topo ins.toList
              (fun q hq2 => IH q (by simpa using hq2)) (u :: st.1, st.2) (u :: grey)
              Lin hin.grow h1' h2' (fun w hw => h3 w (hsubnodes w hw))
            simpa using this
          have hB : topoOK (st.2.map Scalar.uid ++ Lin.map Scalar.uid)
              [Scalar.mk d (.someH (.mk fn ctx ins)) u] := by
            refine ⟨?_, trivial⟩
            intro q hq
            by_cases hqc : q.is_constant = true
            · exact Or.inl hqc
            · right
              have hmk : q.uid ∈ (visitF ins.toList (u :: st.1, st.2)).1 := by
                refine hin.marked q (by simpa using hq) ?_
                cases hcq : q.is_constant
                · rfl
                · exact absurd hcq hqc
              rw [hin.mem_vis q.uid] at hmk
              rcases hmk with hmk | hmk
              · rcases List.mem_cons.1 hmk with hmk2 | hmk2
                · exfalso
                  have := h3v q (by simpa using hq)
                  omega
                · rw [h1 q.uid] at hmk2
                  rcases hmk2 with hg | hs
                  · exfalso
                    exact h2 q.uid hg (Scalar.mk d (.someH (.mk fn ctx ins)) u)
                      (Scalar.self_mem_allNodes _) q hq rfl
                  · exact List.mem_append_left _ hs
              · exact List.mem_append_right _ hmk
          refine topoOK_glue htin hB ?_
          intro x hx
          simpa using hx

/-- C5: save_for_backward is a no-op on saved_values when no_grad is true;
when no_grad is false it sets saved_values to exactly the given values, a
second call replaces the previously saved values so that a later read sees
only the latest ones, and saved_tensors returns saved_values unchanged. -/
theorem claim_C5_context_saving :
    (∀ sv vs, Context.save_for_backward ⟨true, sv⟩ vs = ⟨true, sv⟩) ∧
    (∀ sv vs, Context.save_for_backward ⟨false, sv⟩ vs = ⟨false, vs⟩) ∧
    (∀ sv vs1 vs2,
      Context.save_for_backward (Context.save_for_backward ⟨false, sv⟩ vs1) vs2 =
        ⟨false, vs2⟩) ∧
    (∀ sv vs1 vs2,
      (Context.save_for_backward (Context.save_for_backward ⟨false, sv⟩ vs1) vs2).saved_tensors
        = vs2) ∧
    (∀ ctx, Context.saved_tensors ctx = ctx.saved_values) := by
  refine ⟨fun sv vs => rfl, fun sv vs => rfl, fun sv vs1 vs2 => rfl,
    fun sv vs1 vs2 => rfl, fun ctx => rfl⟩

/-- C6: the internal backward adapter applies wrap_tuple uniformly to every
operation's raw backward result — a single value becomes a 1-tuple, a tuple
is used as is — so local derivatives can always be indexed positionally. -/
theorem claim_C6_backward_normalization :
    (∀ x, wrap_tuple (.single x) = [x]) ∧
    (∀ xs, wrap_tuple (.tuple xs) = xs) ∧
    (∀ fn ctx d r, scalarBackward fn ctx d = some r →
      ScalarFunction._backward fn ctx d = some (wrap_tuple r)) ∧
    (∀ fn ctx d l, ScalarFunction._backward fn ctx d = some l →
      ∃ r, scalarBackward fn ctx d = some r ∧ l = wrap_tuple r) := by
  refine ⟨fun x => rfl, fun xs => rfl, ?_, ?_⟩
  · intro fn ctx d r h
    simp [ScalarFunction._backward, h]
  · intro fn ctx d l h
    unfold ScalarFunction._backward at h
    cases hb : scalarBackward fn ctx d with
    | none => rw [hb] at h; simp at h
    | some r => rw [hb] at h; simp at h; exact ⟨r, rfl, h.symm⟩

/-- C6 witness: the adapter at the Add operation and upstream derivative 1
yields the wrapped tuple of its raw backward result. -/
theorem claim_C6_backward_normalization_witness :
    ScalarFunction._backward .add (Context.mk false []) 1 =
      some (wrap_tuple (.tuple [1, 1])) :=
  claim_C6_backward_normalization.2.2.1 .add (Context.mk false []) 1 (.tuple [1, 1]) rfl

/-- C7: the assert-and-build tail of apply halts with the assertion error on
every non-float forward result, producing no Node, and on a float result
returns the new Node wrapping it with a fresh History over the input Nodes;
apply itself is exactly input wrapping, forward, then this tail. -/
theorem claim_C7_apply_assert :
    (∀ fn ctx inputs c n, c.isFloat = false →
      assertAndBuild fn ctx inputs c n = .error "Expected return type float") ∧
    (∀ fn ctx inputs x n,
      assertAndBuild fn ctx inputs (.float x) n =
        .ok (Scalar.mk x (.someH (.mk (some fn) ctx inputs)) n, n + 1)) ∧
    (∀ fn vals n, ScalarFunction.apply fn vals n =
      match scalarForward fn (Context.mk false []) (wrapInputs vals n).2.1 with
      | none => .error "TypeError"
      | some p => assertAndBuild fn p.1 (wrapInputs vals n).1 p.2 (wrapInputs vals n).2.2) := by
  refine ⟨?_, fun fn ctx inputs x n => rfl, ?_⟩
  · intro fn ctx inputs c n h
    cases c with
    | float x => simp [PyVal.isFloat] at h
    | tuple xs => rfl
    | pynone => rfl
  · intro fn vals n
    cases hp : scalarForward fn (Context.mk false []) (wrapInputs vals n).2.1 with
    | none => simp [ScalarFunction.apply, hp]
    | some p => cases p; simp [ScalarFunction.apply, hp]

/-- C7 witness: at the Add operation with a tuple-shaped forward result the
tail halts with the assertion error, and with the float result 5 it builds
the expected Node. -/
theorem claim_C7_apply_assert_witness :
    PyVal.isFloat (.tuple [5]) = false ∧
    assertAndBuild .add (Context.mk false []) .nil (.tuple [5]) 7 =
      .error "Expected return type float" :=
  ⟨rfl, claim_C7_apply_assert.1 .add (Context.mk false []) .nil (.tuple [5]) 7 rfl⟩

/-- C8: central_difference returns exactly the central difference quotient
with only the chosen positional argument perturbed by plus and minus epsilon
and all other arguments unchanged; the definition uses no graph machinery. -/
theorem claim_C8_central_difference (f : List ℚ → ℚ) (vals : List ℚ) (arg : ℕ)
    (epsilon : ℚ) (h : arg < vals.length) :
    ∃ lp lm : List ℚ,
      central_difference f vals arg epsilon = (f lp - f lm) / (2 * epsilon) ∧
      lp.length = vals.length ∧ lm.length = vals.length ∧
      lp[arg]? = some (vals.get ⟨arg, h⟩ + epsilon) ∧
      lm[arg]? = some (vals.get ⟨arg, h⟩ - epsilon) ∧
      (∀ i, i ≠ arg → lp[i]? = vals[i]?) ∧
      (∀ i, i ≠ arg → lm[i]? = vals[i]?) := by
  refine ⟨vals.set arg (vals.getD arg 0 + epsilon),
    vals.set arg (vals.getD arg 0 - epsilon), rfl, by simp, by simp, ?_, ?_, ?_, ?_⟩
  · rw [List.getElem?_set_self h]
    simp [List.getD_eq_getElem?_getD, List.getElem?_eq_getElem h]
  · rw [List.getElem?_set_self h]
    simp [List.getD_eq_getElem?_getD, List.getElem?_eq_getElem h]
  · intro i hi
    exact List.getElem?_set_ne (Ne.symm hi)
  · intro i hi
    exact List.getElem?_set_ne (Ne.symm hi)

/-- C8 witness: for the function summing its two arguments, values 3 and 10,
argument index 1 and epsilon 1, the characterization holds. -/
theorem claim_C8_central_difference_witness :
    1 < ([3, 10] : List ℚ).length ∧
    ∃ lp lm : List ℚ,
      central_difference (fun l => l.foldl (fun a b => a + b) 0) [3, 10] 1 1 =
        ((fun l : List ℚ => l.foldl (fun a b => a + b) 0) lp -
          (fun l : List ℚ => l.foldl (fun a b => a + b) 0) lm) / (2 * 1) ∧
      lp.length = ([3, 10] : List ℚ).length ∧ lm.length = ([3, 10] : List ℚ).length ∧
      lp[1]? = some (([3, 10] : List ℚ).get ⟨1, by decide⟩ + 1) ∧
      lm[1]? = some (([3, 10] : List ℚ).get ⟨1, by decide⟩ - 1) ∧
      (∀ i, i ≠ 1 → lp[i]? = ([3, 10] : List ℚ)[i]?) ∧
      (∀ i, i ≠ 1 → lm[i]? = ([3, 10] : List ℚ)[i]?) :=
  ⟨by decide, claim_C8_central_difference (fun l => l.foldl (fun a b => a + b) 0)
    [3, 10] 1 1 (by decide)⟩

/-- C10: the backward passes of LT and EQ return exactly the pair of zeros
for every Context and every upstream derivative, and consequently the chain
rule through a less-than or equality node contributes zero to every input. -/
theorem claim_C10_comparisons_block_gradients :
    (∀ ctx d, scalarBackward .lt ctx d = some (.tuple [0, 0])) ∧
    (∀ ctx d, scalarBackward .eq ctx d = some (.tuple [0, 0])) ∧
    (∀ fn : Fn, fn = .lt ∨ fn = .eq → ∀ dta ctx ins u d pairs,
      (Scalar.mk dta (.someH (.mk (some fn) ctx ins)) u).chain_rule d = some pairs →
      ∀ pr ∈ pairs, pr.2 = 0) := by
  refine ⟨fun ctx d => rfl, fun ctx d => rfl, ?_⟩
  intro fn hfn dta ctx ins u d pairs hch pr hpr
  have hz : pairs = ins.toList.zip [0, 0] := by
    rcases hfn with h | h <;> subst h <;>
      simpa [Scalar.chain_rule, ScalarFunction._backward, scalarBackward, wrap_tuple]
        using hch.symm
  subst hz
  have h2 := (List.of_mem_zip hpr).2
  simpa using h2

/-- C10 witness: chain rule through a concrete LT node over two leaves hands
the contribution zero to each of the two inputs. -/
theorem claim_C10_comparisons_block_gradients_witness :
    (Fn.lt = Fn.lt ∨ Fn.lt = Fn.eq) ∧
    (∀ pr ∈ [(exTwo, (0 : ℚ)), (exThree, (0 : ℚ))], pr.2 = 0) :=
  ⟨Or.inl rfl,
    claim_C10_comparisons_block_gradients.2.2 .lt (Or.inl rfl) 0 (Context.mk false [])
      (.cons exTwo (.cons exThree .nil)) 9 1 [(exTwo, 0), (exThree, 0)] rfl⟩

/-- C1: backpropagating the fan-out graph y = x + x (one leaf consumed twice
by one Add node) with seed 1 leaves the derivative slot of x at 2, not 1, and
the insert-or-add step of backpropagate adds a new contribution to an
existing entry of the derivative map rather than overwriting it, while an
absent key is set to the contribution. -/
theorem claim_C1_fanout_summation :
    (ScalarFunction.apply .add [.scalar exX, .scalar exX] 2 = .ok (exY, 3)) ∧
    ((backpropagate exY 1 emptyStore).store exX.uid = some 2) ∧
    ((backpropagate exY 1 emptyStore).error = none) ∧
    (∀ m u d v, dictGet m u = some v → dictGet (dictInsertAdd m u d) u = some (v + d)) ∧
    (∀ m u d, dictGet m u = none → dictGet (dictInsertAdd m u d) u = some d) := by
  refine ⟨?_, ?_, ?_, ?_, ?_⟩
  · norm_num [ScalarFunction.apply, wrapInputs, scalarForward, assertAndBuild,
      Context.save_for_backward, exY, exX, emptyHist, Scalar.data]
  · norm_num [backpropagate, topological_sort, visit, visitList, backpropLoop,
      exY, exX, emptyHist, Scalar.uid, Scalar.is_leaf, Scalar.historySome,
      Scalar.chain_rule, ScalarFunction._backward, scalarBackward, wrap_tuple,
      ScalarList.toList, ScalarList.isEmpty, dictGet, dictInsertAdd,
      accumulate_derivative, emptyStore]
  · norm_num [backpropagate, topological_sort, visit, visitList, backpropLoop,
      exY, exX, emptyHist, Scalar.uid, Scalar.is_leaf, Scalar.historySome,
      Scalar.chain_rule, ScalarFunction._backward, scalarBackward, wrap_tuple,
      ScalarList.toList, ScalarList.isEmpty, dictGet, dictInsertAdd,
      accumulate_derivative, emptyStore]
  · intro m u d v hv
    induction m with
    | nil => simp [dictGet] at hv
    | cons p rest ih =>
      by_cases hp : p.1 = u
      · rw [dictGet] at hv
        rw [if_pos hp] at hv
        cases hv
        simp [dictInsertAdd, hp, dictGet]
      · rw [dictGet] at hv
        rw [if_neg hp] at hv
        simp only [dictInsertAdd, if_neg hp, dictGet]
        exact ih hv
  · intro m u d hv
    induction m with
    | nil => simp [dictInsertAdd, dictGet]
    | cons p rest ih =>
      by_cases hp : p.1 = u
      · rw [dictGet] at hv
        rw [if_pos hp] at hv
        cases hv
      · rw [dictGet] at hv
        rw [if_neg hp] at hv
        simp only [dictInsertAdd, if_neg hp, dictGet]
        exact ih hv

/-- C1 witness: the insert-or-add step at a concrete map holding 2 at key 1
adds the contribution 3 to the existing value instead of overwriting. -/
theorem claim_C1_fanout_summation_witness :
    dictGet [(1, (2 : ℚ))] 1 = some 2 ∧
    dictGet (dictInsertAdd [(1, (2 : ℚ))] 1 3) 1 = some (2 + 3) :=
  ⟨rfl, claim_C1_fanout_summation.2.2.2.1 [(1, 2)] 1 3 2 rfl⟩

/-- C2: Mul.apply(Add.apply(2.0, 3.0), 4.0) forwards to the value 20, and
after backpropagate with seed 1 the leaf wrapping 2 has derivative 4, the
leaf wrapping 3 has derivative 4, the leaf wrapping 4 has derivative 5; the
Add-result node receives the map contribution 4 but its own derivative slot
stays unset. -/
theorem claim_C2_concrete_scenario :
    (ScalarFunction.apply .add [.num 2, .num 3] 1 = .ok (exAdd, 4)) ∧
    (ScalarFunction.apply .mul [.scalar exAdd, .num 4] 4 = .ok (exMul, 6)) ∧
    exMul.data = 20 ∧
    ((backpropagate exMul 1 emptyStore).store exTwo.uid = some 4) ∧
    ((backpropagate exMul 1 emptyStore).store exThree.uid = some 4) ∧
    ((backpropagate exMul 1 emptyStore).store exFour.uid = some 5) ∧
    (dictGet (backpropagate exMul 1 emptyStore).derivatives exAdd.uid = some 4) ∧
    ((backpropagate exMul 1 emptyStore).store exAdd.uid = none) ∧
    ((backpropagate exMul 1 emptyStore).error = none) := by
  refine ⟨?_, ?_, rfl, ?_, ?_, ?_, ?_, ?_, ?_⟩
  · norm_num [ScalarFunction.apply, wrapInputs, scalarForward, assertAndBuild,
      Context.save_for_backward, exAdd, exTwo, exThree, emptyHist]
  · norm_num [ScalarFunction.apply, wrapInputs, scalarForward, assertAndBuild,
      Context.save_for_backward, exMul, exAdd, exTwo, exThree, exFour, emptyHist,
      Scalar.data]
  all_goals
    norm_num [backpropagate, topological_sort, visit, visitList, backpropLoop,
      exMul, exAdd, exTwo, exThree, exFour, emptyHist, Scalar.uid, Scalar.is_leaf,
      Scalar.historySome, Scalar.chain_rule, ScalarFunction._backward, scalarBackward,
      wrap_tuple, ScalarList.toList, ScalarList.isEmpty, dictGet, dictInsertAdd,
      accumulate_derivative, emptyStore]

theorem topoOK_split {s : List ℕ} {l : List Scalar} (h : topoOK s l) :
    ∀ l1 (w : Scalar) l2, l = l1 ++ w :: l2 →
      ∀ p ∈ w.inputsL, p.is_constant = true ∨ p.uid ∈ s ∨ p.uid ∈ l1.map Scalar.uid := by
  induction l generalizing s with
  | nil =>
    intro l1 w l2 hl
    exact absurd hl (by simp)
  | cons x rest ih =>
    intro l1 w l2 hl p hp
    cases l1 with
    | nil =>
      simp only [List.nil_append, List.cons.injEq] at hl
      obtain ⟨hx, _⟩ := hl
      subst hx
      rcases h.1 p hp with hc | hc
      · exact Or.inl hc
      · exact Or.inr (Or.inl hc)
    | cons a l1 =>
      simp only [List.cons_append, List.cons.injEq] at hl
      obtain ⟨hx, hrest⟩ := hl
      subst hx
      rcases ih h.2 l1 w l2 hrest p hp with hc | hc | hc
      · exact Or.inl hc
      · rcases List.mem_cons.1 hc with hc2 | hc2
        · exact Or.inr (Or.inr (by simp [hc2]))
        · exact Or.inr (Or.inl hc2)
      · exact Or.inr (Or.inr (by simp only [List.map_cons, List.mem_cons]; exact Or.inr hc))

/-- C3: the sequence returned by topological_sort is dependency-ordered —
every non-constant parent of an element occurs (by unique id) strictly
earlier in the sequence, ids are pairwise distinct so each Node appears at
most once, constants never appear, a non-constant root is the last element,
and a constant root yields the empty sequence.  The hypothesis states that
ids strictly increase from parents to children, the embedding of the global
monotone id counter of the Python runtime. -/
theorem claim_C3_topological_validity (root : Scalar) (h3 : uidsIncrease root) :
    (∀ l1 (w : Scalar) l2, topological_sort root = l1 ++ w :: l2 →
      ∀ p ∈ w.inputsL, p.is_constant = true ∨ p.uid ∈ l1.map Scalar.uid) ∧
    ((topological_sort root).map Scalar.uid).Nodup ∧
    (topological_sort root).Nodup ∧
    (∀ w ∈ topological_sort root, w.is_constant = false) ∧
    (root.is_constant = false → ∃ l0, topological_sort root = l0 ++ [root]) ∧
    (root.is_constant = true → topological_sort root = []) := by
  obtain ⟨L, hout⟩ := visit_out root ([], [])
  have hts : topological_sort root = L := by
    rw [topological_sort]
    rw [hout.grow]
    simp
  have htopo : topoOK [] L := by
    have := visit_topo root ([], []) [] L hout.grow (by simp) (by simp) h3
    simpa using this
  refine ⟨?_, ?_, ?_, ?_, ?_, ?_⟩
  · intro l1 w l2 hl p hp
    rw [hts] at hl
    rcases topoOK_split htopo l1 w l2 hl p hp with hc | hc | hc
    · exact Or.inl hc
    · exact absurd hc (by simp)
    · exact Or.inr hc
  · rw [hts]; exact hout.nodup
  · rw [hts]; exact hout.nodup.of_map
  · intro w hw
    rw [hts] at hw
    exact (hout.nodes w hw).1
  · intro hc
    rw [hts]
    exact hout.root_last hc (by simp)
  · intro hc
    rw [hts]
    exact hout.skipped (Or.inl hc)

/-- C3 witness: at the concrete five-node graph of the worked scenario the id
hypothesis holds by computation and the validity properties follow. -/
theorem claim_C3_topological_validity_witness :
    uidsIncrease exMul ∧
    ((topological_sort exMul).map Scalar.uid).Nodup ∧
    (∀ w ∈ topological_sort exMul, w.is_constant = false) :=
  ⟨by decide, (claim_C3_topological_validity exMul (by decide)).2.1,
    (claim_C3_topological_validity exMul (by decide)).2.2.2.1⟩

theorem accumulate_derivative_ne (store : ℕ → Option ℚ) (u : ℕ) (x : ℚ) {u' : ℕ}
    (h : u' ≠ u) : accumulate_derivative store u x u' = store u' := if_neg h

theorem backpropLoop_store_change :
    ∀ (r : List Scalar) (m : List (ℕ × ℚ)) (store : ℕ → Option ℚ) (u : ℕ),
      (backpropLoop r m store).store u ≠ store u →
      ∃ v ∈ r, v.uid = u ∧ v.is_leaf = true := by
  intro r
  induction r with
  | nil =>
    intro m store u h
    exact absurd rfl h
  | cons v rest ih =>
    intro m store u h
    cases hget : dictGet m v.uid with
    | none =>
      simp only [backpropLoop, hget] at h
      exact absurd rfl h
    | some d =>
      simp only [backpropLoop, hget] at h
      by_cases hleaf : v.is_leaf
      · rw [if_pos hleaf] at h
        by_cases huv : u = v.uid
        · exact ⟨v, List.mem_cons_self _ _, huv.symm, hleaf⟩
        · have hacc : accumulate_derivative store v.uid d u = store u :=
            accumulate_derivative_ne store v.uid d huv
          have h' : (backpropLoop rest m (accumulate_derivative store v.uid d)).store u ≠
              accumulate_derivative store v.uid d u := by
            rw [hacc]
            exact h
          obtain ⟨w, hw, hwu, hwl⟩ := ih m (accumulate_derivative store v.uid d) u h'
          exact ⟨w, List.mem_cons_of_mem _ hw, hwu, hwl⟩
      · rw [if_neg hleaf] at h
        by_cases hhist : v.historySome
        · rw [if_pos hhist] at h
          cases hch : v.chain_rule d with
          | none =>
            rw [hch] at h
            exact absurd rfl h
          | some pairs =>
            rw [hch] at h
            obtain ⟨w, hw, hwu, hwl⟩ := ih _ store u h
            exact ⟨w, List.mem_cons_of_mem _ hw, hwu, hwl⟩
        · rw [if_neg hhist] at h
          obtain ⟨w, hw, hwu, hwl⟩ := ih m store u h
          exact ⟨w, List.mem_cons_of_mem _ hw, hwu, hwl⟩

/-- C4: one backpropagate call changes the derivative store only at ids of
leaf Nodes of the traversal; every non-leaf node of the graph keeps its
previous slot, constants keep theirs and are never visited by the traversal.
The hypothesis states that nodes of the graph agreeing on the id agree on
leafness and constantness, the embedding of the process-wide uniqueness of
Python ids. -/
theorem claim_C4_leaf_only_accumulation (root : Scalar) (hk : sameUidSameKind root)
    (seed : ℚ) (store0 : ℕ → Option ℚ) :
    (∀ u, (backpropagate root seed store0).store u ≠ store0 u →
      ∃ v ∈ topological_sort root, v.uid = u ∧ v.is_leaf = true) ∧
    (∀ w ∈ topological_sort root, w.is_constant = false) ∧
    (∀ w ∈ root.allNodes, w.is_leaf = false →
      (backpropagate root seed store0).store w.uid = store0 w.uid) ∧
    (∀ w ∈ root.allNodes, w.is_constant = true →
      (backpropagate root seed store0).store w.uid = store0 w.uid ∧
        w ∉ topological_sort root) := by
  obtain ⟨L, hout⟩ := visit_out root ([], [])
  have hts : topological_sort root = L := by
    rw [topological_sort]
    rw [hout.grow]
    simp
  have horder : ∀ v ∈ topological_sort root, v.is_constant = false ∧ v ∈ root.allNodes := by
    intro v hv
    rw [hts] at hv
    exact hout.nodes v hv
  have hchange : ∀ u, (backpropagate root seed store0).store u ≠ store0 u →
      ∃ v ∈ topological_sort root, v.uid = u ∧ v.is_leaf = true := by
    intro u h
    obtain ⟨v, hv, hvu, hvl⟩ :=
      backpropLoop_store_change (topological_sort root).reverse [(root.uid, seed)] store0 u h
    exact ⟨v, List.mem_reverse.1 hv, hvu, hvl⟩
  refine ⟨hchange, fun w hw => (horder w hw).1, ?_, ?_⟩
  · intro w hw hleaf
    by_contra hne
    obtain ⟨v, hv, hvu, hvl⟩ := hchange w.uid hne
    have := (hk v (horder v hv).2 w hw hvu).1
    rw [hvl, hleaf] at this
    simp at this
  · intro w hw hconst
    constructor
    · by_contra hne
      obtain ⟨v, hv, hvu, hvl⟩ := hchange w.uid hne
      have := (hk v (horder v hv).2 w hw hvu).2
      rw [(horder v hv).1, hconst] at this
      simp at this
    · intro hmem
      have := (horder w hmem).1
      rw [hconst] at this
      simp at this

/-- C4 witness: at the concrete five-node graph the id-kind hypothesis holds
by computation, and the non-leaf Mul and Add nodes keep their unset slots. -/
theorem claim_C4_leaf_only_accumulation_witness :
    sameUidSameKind exMul ∧
    (∀ w ∈ exMul.allNodes, w.is_leaf = false →
      (backpropagate exMul 1 emptyStore).store w.uid = emptyStore w.uid) :=
  ⟨by decide, (claim_C4_leaf_only_accumulation exMul (by decide) 1 emptyStore).2.2.1⟩

theorem dictGet_isSome_of_mem (m : List (ℕ × ℚ)) (u : ℕ) (h : u ∈ dictKeys m) :
    ∃ d, dictGet m u = some d := by
  induction m with
  | nil => simp [dictKeys] at h
  | cons p rest ih =>
    by_cases hp : p.1 = u
    · exact ⟨p.2, by rw [dictGet, if_pos hp]⟩
    · rcases List.mem_cons.1 h with h2 | h2
      · exact absurd h2.symm hp
      · obtain ⟨d, hd⟩ := ih h2
        exact ⟨d, by rw [dictGet, if_neg hp]; exact hd⟩

theorem mem_keys_insertAdd (m : List (ℕ × ℚ)) (k : ℕ) (d : ℚ) (u : ℕ)
    (h : u ∈ dictKeys m ∨ u = k) : u ∈ dictKeys (dictInsertAdd m k d) := by
  induction m with
  | nil =>
    rcases h with h | h
    · simp [dictKeys] at h
    · simp [dictInsertAdd, dictKeys, h]
  | cons p rest ih =>
    by_cases hp : p.1 = k
    · rw [dictInsertAdd, if_pos hp]
      rcases h with h | h
      · exact h
      · simp [dictKeys, hp, h]
    · rw [dictInsertAdd, if_neg hp]
      rcases h with h | h
      · rcases List.mem_cons.1 h with h2 | h2
        · simp [dictKeys, h2]
        · exact List.mem_cons_of_mem _ (ih (Or.inl h2))
      · exact List.mem_cons_of_mem _ (ih (Or.inr h))

theorem mem_keys_foldl (pairs : List (Scalar × ℚ)) (m : List (ℕ × ℚ)) (u : ℕ)
    (h : u ∈ dictKeys m ∨ ∃ pr ∈ pairs, pr.1.uid = u) :
    u ∈ dictKeys (pairs.foldl (fun mm pq => dictInsertAdd mm pq.1.uid pq.2) m) := by
  induction pairs generalizing m with
  | nil =>
    rcases h with h | ⟨pr, hpr, _⟩
    · exact h
    · simp at hpr
  | cons pq pairs ih =>
    rw [List.foldl_cons]
    rcases h with h | ⟨pr, hpr, hu⟩
    · exact ih _ (Or.inl (mem_keys_insertAdd m pq.1.uid pq.2 u (Or.inl h)))
    · rcases List.mem_cons.1 hpr with h2 | h2
      · exact ih _ (Or.inl (mem_keys_insertAdd m pq.1.uid pq.2 u (Or.inr (h2 ▸ hu).symm)))
      · exact ih _ (Or.inr ⟨pr, h2, hu⟩)

theorem exists_zip_of_mem {α β : Type} (a : α) :
    ∀ (l1 : List α) (l2 : List β), a ∈ l1 → l1.length ≤ l2.length →
      ∃ b, (a, b) ∈ l1.zip l2 := by
  intro l1
  induction l1 with
  | nil =>
    intro l2 ha _
    simp at ha
  | cons x l1 ih =>
    intro l2 ha hl
    cases l2 with
    | nil => simp at hl
    | cons y l2 =>
      rcases List.mem_cons.1 ha with h | h
      · exact ⟨y, by simp [h]⟩
      · obtain ⟨b, hb⟩ := ih l2 h (by simpa using hl)
        exact ⟨b, List.mem_cons_of_mem _ hb⟩

theorem scalarBackward_length (fn : Fn) (ctx : Context) (d : ℚ) (r : BackResult)
    (h : scalarBackward fn ctx d = some r) : (wrap_tuple r).length = arityOf fn := by
  cases fn with
  | add =>
    simp [scalarBackward] at h
    subst h
    rfl
  | mul =>
    rcases hs : ctx.saved_values with _ | ⟨a, _ | ⟨b, _ | ⟨c, t⟩⟩⟩ <;>
      simp [scalarBackward, hs] at h
    subst h
    rfl
  | inv =>
    rcases hs : ctx.saved_values with _ | ⟨a, _ | ⟨b, t⟩⟩ <;>
      simp [scalarBackward, hs] at h
    subst h
    rfl
  | neg =>
    simp [scalarBackward] at h
    subst h
    rfl
  | relu =>
    rcases hs : ctx.saved_values with _ | ⟨a, _ | ⟨b, t⟩⟩ <;>
      simp [scalarBackward, hs] at h
    subst h
    rfl
  | lt =>
    simp [scalarBackward] at h
    subst h
    rfl
  | eq =>
    simp [scalarBackward] at h
    subst h
    rfl

theorem chain_rule_covers {v : Scalar} {d : ℚ} {pairs : List (Scalar × ℚ)}
    (hch : v.chain_rule d = some pairs) (ha : v.arityMatches = true) :
    ∀ p ∈ v.inputsL, ∃ q, (p, q) ∈ pairs := by
  intro p hp
  cases v with
  | mk dta h u =>
    cases h with
    | noneH => simp [Scalar.chain_rule] at hch
    | someH hh =>
      cases hh with
      | mk fnOpt ctx ins =>
        cases fnOpt with
        | none => simp [Scalar.chain_rule] at hch
        | some fn =>
          cases hb : scalarBackward fn ctx d with
          | none => simp [Scalar.chain_rule, ScalarFunction._backward, hb] at hch
          | some r =>
            have hpairs : pairs = ins.toList.zip (wrap_tuple r) := by
              simp [Scalar.chain_rule, ScalarFunction._backward, hb] at hch
              exact hch.symm
            subst hpairs
            have hlen : (wrap_tuple r).length = arityOf fn := scalarBackward_length fn ctx d r hb
            have harp : ins.toList.length ≤ arityOf fn := by
              simpa [Scalar.arityMatches] using ha
            exact exists_zip_of_mem p ins.toList (wrap_tuple r) (by simpa using hp)
              (by omega)

theorem inputsL_eq_nil_of_is_leaf {v : Scalar} (h : v.is_leaf = true) : v.inputsL = [] := by
  cases v with
  | mk d hh u =>
    cases hh with
    | noneH => rfl
    | someH h2 =>
      cases h2 with
      | mk fn ctx ins =>
        cases ins with
        | nil => rfl
        | cons a as => simp [ScalarList.isEmpty] at h

theorem inputsL_eq_nil_of_not_historySome {v : Scalar} (h : v.historySome = false) :
    v.inputsL = [] := by
  cases v with
  | mk d hh u =>
    cases hh with
    | noneH => rfl
    | someH h2 => simp [Scalar.historySome] at h

theorem backpropLoop_no_keyError :
    ∀ (r : List Scalar) (m : List (ℕ × ℚ)) (store : ℕ → Option ℚ),
      (∀ A (w : Scalar) B, r = A ++ w :: B →
        w.uid ∈ dictKeys m ∨ ∃ y ∈ A, w ∈ y.inputsL) →
      (∀ w ∈ r, w.arityMatches = true) →
      (backpropLoop r m store).error ≠ some .keyError := by
  intro r
  induction r with
  | nil =>
    intro m store _ _
    simp [backpropLoop]
  | cons v rest ih =>
    intro m store hcov har
    have hv : v.uid ∈ dictKeys m := by
      rcases hcov [] v rest rfl with h | ⟨y, hy, _⟩
      · exact h
      · simp at hy
    obtain ⟨d, hget⟩ := dictGet_isSome_of_mem m v.uid hv
    show (backpropLoop (v :: rest) m store).error ≠ some .keyError
    simp only [backpropLoop, hget]
    by_cases hleaf : v.is_leaf
    · rw [if_pos hleaf]
      apply ih
      · intro A w B hAB
        rcases hcov (v :: A) w B (by rw [hAB]; rfl) with h | ⟨y, hy, hwy⟩
        · exact Or.inl h
        · rcases List.mem_cons.1 hy with h2 | h2
          · exfalso
            rw [h2] at hwy
            rw [inputsL_eq_nil_of_is_leaf hleaf] at hwy
            simp at hwy
          · exact Or.inr ⟨y, h2, hwy⟩
      · exact fun w hw => har w (List.mem_cons_of_mem _ hw)
    · rw [if_neg hleaf]
      by_cases hhist : v.historySome
      · rw [if_pos hhist]
        cases hch : v.chain_rule d with
        | none => simp
        | some pairs =>
          apply ih
          · intro A w B hAB
            rcases hcov (v :: A) w B (by rw [hAB]; rfl) with h | ⟨y, hy, hwy⟩
            · exact Or.inl (mem_keys_foldl pairs m w.uid (Or.inl h))
            · rcases List.mem_cons.1 hy with h2 | h2
              · rw [h2] at hwy
                obtain ⟨q, hq⟩ :=
                  chain_rule_covers hch (har v (List.mem_cons_self _ _)) w hwy
                exact Or.inl (mem_keys_foldl pairs m w.uid (Or.inr ⟨(w, q), hq, rfl⟩))
              · exact Or.inr ⟨y, h2, hwy⟩
          · exact fun w hw => har w (List.mem_cons_of_mem _ hw)
      · rw [if_neg hhist]
        apply ih
        · intro A w B hAB
          rcases hcov (v :: A) w B (by rw [hAB]; rfl) with h | ⟨y, hy, hwy⟩
          · exact Or.inl h
          · rcases List.mem_cons.1 hy with h2 | h2
            · exfalso
              rw [h2] at hwy
              rw [inputsL_eq_nil_of_not_historySome (by simpa using hhist)] at hwy
              simp at hwy
            · exact Or.inr ⟨y, h2, hwy⟩
        · exact fun w hw => har w (List.mem_cons_of_mem _ hw)

/-- C9: backpropagate never fails a derivative-map lookup — for every
variable of the reversed topological order the map holds an entry for its id
at the moment it is read, because the root is seeded and every other element
of the order is a direct input of an element processed before it.  The
hypothesis states that every recorded operation of the graph has at least as
many local derivatives as the node has parents, true of every graph built by
apply. -/
theorem claim_C9_no_missing_entry (root : Scalar) (ha : aritiesOK root)
    (seed : ℚ) (store0 : ℕ → Option ℚ) :
    (backpropagate root seed store0).error ≠ some .keyError := by
  obtain ⟨L, hout⟩ := visit_out root ([], [])
  have hts : topological_sort root = L := by
    rw [topological_sort]
    rw [hout.grow]
    simp
  rw [backpropagate]
  apply backpropLoop_no_keyError
  · intro A w B hAB
    have hsplit : topological_sort root = B.reverse ++ w :: A.reverse := by
      have h2 := congrArg List.reverse hAB
      rw [List.reverse_reverse] at h2
      rw [h2]
      simp
    have hec : eachConsumed [root] (topological_sort root) := by
      rw [hts]
      exact hout.consumed
    rcases eachConsumed_split hec B.reverse w A.reverse hsplit with h | ⟨y, hy, hwy⟩
    · left
      rcases List.mem_singleton.1 h with rfl
      simp [dictKeys]
    · exact Or.inr ⟨y, List.mem_reverse.1 hy, hwy⟩
  · intro w hw
    have hwo : w ∈ topological_sort root := List.mem_reverse.1 hw
    rw [hts] at hwo
    exact ha w (hout.nodes w hwo).2

/-- C9 witness: at the concrete five-node graph the arity hypothesis holds by
computation and the backpropagation run reports no failed lookup. -/
theorem claim_C9_no_missing_entry_witness :
    aritiesOK exMul ∧
    (backpropagate exMul 1 emptyStore).error ≠ some .keyError :=
  ⟨by decide, claim_C9_no_missing_entry exMul (by decide) 1 emptyStore⟩
